import Mathlib

/-!
# Verification of the batch ingestion pipeline of `trprdataentry-app`

Shallow embedding of the bulk upload / batch-write pipeline of
`src/services/firestore.ts` and of the progress/ETA callback of
`src/components/AdminPanel.tsx`, together with proofs and refutations of the
frozen specification claims.

Conventions of the embedding:
* TypeScript arrays become Lean `List`s; JavaScript numbers used as counters
  and indices become `ℕ`; numbers fed to divisions (percentage, rate, ETA)
  become `ℚ`, with the JavaScript `NaN`/`Infinity` outcomes of a division by
  zero modelled as `Option.none`.
* The single-threaded cooperative concurrency of `processInPool` is modelled
  as a labelled transition system: one worker acts per step, and a run is a
  list of events.  Suspension points of the source (`await batch.commit()`)
  are exactly the points at which the model lets another worker act.
* All definitions are executable, so every concrete scenario used as a
  witness evaluates inside the kernel.
-/

namespace TrprBatch

/-! ## Chunker: `chunkArray` (src/services/firestore.ts, lines 151-159)

```ts
const chunkArray = <T>(array: T[], size: number): T[][] => {
    const chunked_arr = [];
    let index = 0;
    while (index < array.length) {
        chunked_arr.push(array.slice(index, size + index));
        index += size;
    }
    return chunked_arr;
};
```

`array.slice(index, size + index)` is `(array.drop index).take size`.
`chunkGo` is the loop, expressed as recursion on the loop variable `index`;
it is total only for `size ≥ 1`, so the positivity of `size` is carried as a
hypothesis.  The literal while-loop, including its divergence for `size = 0`,
is modelled separately by `chunkLoopRun` below. -/

def chunkGo {α : Type} (array : List α) (size : ℕ) (hsize : 0 < size) (index : ℕ) :
    List (List α) :=
  if _h : index < array.length then
    ((array.drop index).take size) :: chunkGo array size hsize (index + size)
  else
    []
termination_by array.length - index
decreasing_by simp_wf; omega

def chunkArray {α : Type} (array : List α) (size : ℕ) (hsize : 0 < size) :
    List (List α) :=
  chunkGo array size hsize 0

/-! ## The literal while-loop of `chunkArray`

`chunkLoopRun` executes the source loop step by step with an explicit fuel
bound; `none` means the loop has not terminated within `fuel` iterations.
This is the vehicle for the termination claim: for `size ≥ 1` the loop ends
within `array.length` iterations, and for `size = 0` on a non-empty array it
never ends, whatever the fuel. -/

structure ChunkLoopState (α : Type) where
  index : ℕ
  acc : List (List α)

/-- One iteration of the `while` body: push `array.slice(index, size + index)`
and do `index += size`. -/
def chunkLoopStep {α : Type} (array : List α) (size : ℕ) (s : ChunkLoopState α) :
    ChunkLoopState α :=
  { index := s.index + size, acc := s.acc ++ [(array.drop s.index).take size] }

/-- Run the loop for at most `fuel` iterations. -/
def chunkLoopRun {α : Type} (array : List α) (size : ℕ) :
    ℕ → ChunkLoopState α → Option (List (List α))
  | 0, s => if s.index < array.length then none else some s.acc
  | fuel + 1, s =>
      if s.index < array.length then
        chunkLoopRun array size fuel (chunkLoopStep array size s)
      else some s.acc

/-! ## Records and the document-id sanitizer

`MasterRecord` from `src/types.ts`; `sanitizeDocId` from
`src/services/firestore.ts`, lines 163-165:

```ts
const sanitizeDocId = (id: string): string => {
    return id.replace(/[.\/#$\[\]\\]/g, '_').trim();
};
```

The regex replaces every occurrence of the characters `. / # $ [ ] \` by
`_`; then the result is trimmed.  (`String.trim` in Lean trims ASCII
whitespace; the exotic Unicode whitespace JavaScript additionally trims does
not occur in the identity keys of this data model.) -/

structure MasterRecord where
  seatNo : String
  studentName : String
  collegeCode : String
  collegeName : String
deriving DecidableEq

def forbiddenIdChar (c : Char) : Bool :=
  c = '.' || c = '/' || c = '#' || c = '$' || c = '[' || c = ']' || c = '\\'

/-- `id.replace(/[.\/#$\[\]\\]/g, '_')`, working on the character list of the
string (structural recursion, so concrete instances evaluate in the kernel). -/
def replaceForbidden : List Char → List Char
  | [] => []
  | c :: cs => (if forbiddenIdChar c then '_' else c) :: replaceForbidden cs

/-- Drop leading whitespace. -/
def trimLeftChars : List Char → List Char
  | [] => []
  | c :: cs => if c.isWhitespace then trimLeftChars cs else c :: cs

/-- `.trim()`: drop leading and trailing whitespace. -/
def trimChars (l : List Char) : List Char :=
  (trimLeftChars (trimLeftChars l).reverse).reverse

def sanitizeDocId (id : String) : String :=
  String.mk (trimChars (replaceForbidden id.data))

/-! ## The per-chunk unit of work of `uploadMasterRecordsBatch`
(src/services/firestore.ts, lines 182-211)

```ts
const processChunk = async (chunk: MasterRecord[]) => {
    const batch = writeBatch(db);
    let batchHasOps = false;
    chunk.forEach(record => {
        const rawSeatNo = String(record.seatNo || '');
        const safeId = sanitizeDocId(rawSeatNo);
        if (safeId && safeId.length > 0) {
            const docRef = doc(collectionRef, safeId);
            batch.set(docRef, record);
            batchHasOps = true;
        }
    });
    if (batchHasOps) { try { await batch.commit(); } catch (e) { ...; throw e; } }
    processedCount += chunk.length;
    if (onProgress) onProgress(Math.min(processedCount, records.length), records.length);
};
```

With `seatNo` a string, `String(record.seatNo || '')` is the identity (both
branches of `||` are the string itself or `''`).  `chunkOps` is the list of
upserts the batch accumulates: one `(safeId, record)` pair per record whose
sanitized key is non-empty; `safeId && safeId.length > 0` holds exactly when
`safeId ≠ ""`.  The commit is invoked iff `batchHasOps`, i.e. iff
`chunkOps chunk ≠ []`. -/

def chunkOps (chunk : List MasterRecord) : List (String × MasterRecord) :=
  chunk.filterMap (fun record =>
    let safeId := sanitizeDocId record.seatNo
    if safeId ≠ "" then some (safeId, record) else none)

/-! ## The progress callback (src/components/AdminPanel.tsx, lines 188-210)

```ts
const createProgressCallback = (startTime: number) => {
    return (processed: number, total: number) => {
        const pct = Math.round((processed / total) * 100);
        setUploadProgress(pct);
        const now = Date.now();
        const elapsedSeconds = (now - startTime) / 1000;
        if (processed > 0 && elapsedSeconds > 0) {
            const recordsPerSecond = processed / elapsedSeconds;
            const remainingRecords = total - processed;
            if (remainingRecords <= 0) {
                setEstimatedTime("Finishing up...");
            } else {
                const secondsRemaining = Math.round(remainingRecords / recordsPerSecond);
                setEstimatedTime(formatTime(secondsRemaining));
            }
        }
    };
};
```

JavaScript numbers are modelled as `ℚ`.  A JavaScript division produces a
real quotient except when the divisor is `0`, in which case it produces
`NaN` or `±Infinity`; `jsDiv` models those non-finite outcomes as `none`.
`Math.round` is `round` (both round halves up). -/

def jsDiv (a b : ℚ) : Option ℚ :=
  if b = 0 then none else some (a / b)

/-- The percentage set by the callback: `Math.round((processed / total) * 100)`.
`none` is the `NaN` produced when `total = 0`. -/
def progressPct (processed total : ℚ) : Option ℤ :=
  (jsDiv processed total).map (fun q => round (q * 100))

/-- The estimated-time outcome of one callback invocation.  `keepPrevious`
means `setEstimatedTime` is not called, so the previously displayed text — the
initial `"Calculating..."` sentinel until a first estimate is produced — is
kept. -/
inductive TimeEstimate where
  | keepPrevious
  | finishing
  | eta (seconds : ℤ)
deriving DecidableEq

/-- The estimated-time branch of the callback body. -/
def progressEstimate (processed total elapsedSeconds : ℚ) : TimeEstimate :=
  if 0 < processed ∧ 0 < elapsedSeconds then
    if total - processed ≤ 0 then TimeEstimate.finishing
    else TimeEstimate.eta (round ((total - processed) / (processed / elapsedSeconds)))
  else TimeEstimate.keepPrevious

/-! ## The bounded-concurrency pool and the batch upload

`processInPool` (src/services/firestore.ts, lines 31-49):

```ts
const processInPool = async <T>(items, concurrency, processItem) => {
    const queue = [...items];
    const workers = [];
    const workerCount = Math.min(concurrency, items.length);
    for (let i = 0; i < workerCount; i++) {
        workers.push((async () => {
            while (queue.length > 0) {
                const item = queue.shift();
                if (item) await processItem(item);
            }
        })());
    }
    await Promise.all(workers);
};
```

driven by `uploadMasterRecordsBatch` (lines 167-216) with
`items := chunkArray(records, 500)`, `concurrency := 25` and
`processItem := processChunk` (quoted above next to `chunkOps`).

The single-threaded cooperative execution is modelled as a labelled
transition system over `PoolState`.  Between the `queue.length > 0` check,
`queue.shift()` and the call of `processItem` there is no `await`, so a
dequeue is one atomic step (`dispatch`); the only suspension point is
`await batch.commit()`, whose resolution is the `ok`/`err` step of the
worker holding that chunk, in an order chosen by the environment (backend
latency).  A worker that sees an empty queue terminates (`retire`).  A
worker whose commit throws stops permanently — its `async` function rejects
(`err`); the other workers keep draining the queue, and `Promise.all`
rejects with the first error, which `uploadMasterRecordsBatch` propagates
(fail-fast, no retry, no rollback).

`PoolState` fields:
* `queue`    — the shared chunk queue;
* `busy`     — chunks currently inside `processItem`, one per running worker;
* `idle`     — workers currently ready to re-check the queue;
* `retired`  — workers that terminated normally;
* `commits`  — the sequence of `batch.commit()` invocations (each the op list
               of a non-empty batch);
* `storeOps` — upserts applied to the backend store by successful commits;
* `processed`— the shared `processedCount` counter;
* `reports`  — the arguments of the `onProgress` invocations, in order;
* `error`    — the rejection value `Promise.all` settles with (first error),
               errors being identified by an environment-chosen tag. -/

abbrev Chunk := List MasterRecord

structure PoolState where
  queue : List Chunk
  busy : List Chunk
  idle : ℕ
  retired : ℕ
  commits : List (List (String × MasterRecord))
  storeOps : List (String × MasterRecord)
  processed : ℕ
  reports : List (ℕ × ℕ)
  error : Option ℕ
deriving DecidableEq

inductive PoolEv where
  | dispatch (c : Chunk)
  | retire
  | ok (c : Chunk)
  | err (c : Chunk) (eid : ℕ)
deriving DecidableEq

/-- The initial state of `processInPool items concurrency processItem`:
`workerCount = Math.min(concurrency, items.length)` workers start idle. -/
def initState (chunks : List Chunk) (concurrency : ℕ) : PoolState :=
  { queue := chunks
    busy := []
    idle := min concurrency chunks.length
    retired := 0
    commits := []
    storeOps := []
    processed := 0
    reports := []
    error := none }

/-- State change when the commit of the `j`-th busy chunk resolves
successfully (or is skipped because the batch is empty): the commit happens
only if `chunkOps c ≠ []`, the upserts reach the store, the shared counter
grows by the chunk's original length, `onProgress` is invoked with
`(Math.min(processedCount, total), total)`, and the worker returns to the
queue. -/
def okState (total : ℕ) (s : PoolState) (j : ℕ) : PoolState :=
  let c := s.busy.getD j []
  { s with
    busy := s.busy.eraseIdx j
    idle := s.idle + 1
    commits := if chunkOps c = [] then s.commits else s.commits ++ [chunkOps c]
    storeOps := s.storeOps ++ chunkOps c
    processed := s.processed + c.length
    reports := s.reports ++ [(min (s.processed + c.length) total, total)] }

/-- State change when the commit of the `j`-th busy chunk rejects: the
atomic batch writes nothing, `processChunk` rethrows before touching the
counter or `onProgress`, the worker's loop is aborted by the exception (it
never returns to the queue), and `Promise.all` keeps the first rejection. -/
def errState (s : PoolState) (j : ℕ) (eid : ℕ) : PoolState :=
  { s with
    busy := s.busy.eraseIdx j
    error := match s.error with
      | none => some eid
      | some e => some e }

inductive PoolStep (total : ℕ) : PoolState → PoolEv → PoolState → Prop
  | dispatch (s : PoolState) (c : Chunk) (q : List Chunk) :
      0 < s.idle → s.queue = c :: q →
      PoolStep total s (PoolEv.dispatch c)
        { s with queue := q, busy := s.busy ++ [c], idle := s.idle - 1 }
  | retire (s : PoolState) :
      0 < s.idle → s.queue = [] →
      PoolStep total s PoolEv.retire
        { s with idle := s.idle - 1, retired := s.retired + 1 }
  | ok (s : PoolState) (j : ℕ) :
      j < s.busy.length →
      PoolStep total s (PoolEv.ok (s.busy.getD j [])) (okState total s j)
  | err (s : PoolState) (j : ℕ) (eid : ℕ) :
      j < s.busy.length → chunkOps (s.busy.getD j []) ≠ [] →
      PoolStep total s (PoolEv.err (s.busy.getD j []) eid) (errState s j eid)

/-- A run: a sequence of steps labelled by its event trace. -/
inductive PoolRun (total : ℕ) : PoolState → List PoolEv → PoolState → Prop
  | nil (s : PoolState) : PoolRun total s [] s
  | cons (s s₁ s₂ : PoolState) (e : PoolEv) (tr : List PoolEv) :
      PoolStep total s e s₁ → PoolRun total s₁ tr s₂ →
      PoolRun total s (e :: tr) s₂

/-- The pool has resolved: every worker has terminated, normally or by
rejection, so `Promise.all` has settled. -/
def Terminal (s : PoolState) : Prop := s.idle = 0 ∧ s.busy = []

/-! Event-trace projections. -/

def dispatches : List PoolEv → List Chunk
  | [] => []
  | PoolEv.dispatch c :: tr => c :: dispatches tr
  | PoolEv.retire :: tr => dispatches tr
  | PoolEv.ok _ :: tr => dispatches tr
  | PoolEv.err _ _ :: tr => dispatches tr

def oks : List PoolEv → List Chunk
  | [] => []
  | PoolEv.dispatch _ :: tr => oks tr
  | PoolEv.retire :: tr => oks tr
  | PoolEv.ok c :: tr => c :: oks tr
  | PoolEv.err _ _ :: tr => oks tr

def errChunks : List PoolEv → List Chunk
  | [] => []
  | PoolEv.dispatch _ :: tr => errChunks tr
  | PoolEv.retire :: tr => errChunks tr
  | PoolEv.ok _ :: tr => errChunks tr
  | PoolEv.err c _ :: tr => c :: errChunks tr

def retireCount : List PoolEv → ℕ
  | [] => 0
  | PoolEv.retire :: tr => retireCount tr + 1
  | PoolEv.dispatch _ :: tr => retireCount tr
  | PoolEv.ok _ :: tr => retireCount tr
  | PoolEv.err _ _ :: tr => retireCount tr

/-- The first rejection in the trace — the value `Promise.all` settles with. -/
def firstErr : List PoolEv → Option ℕ
  | [] => none
  | PoolEv.err _ eid :: _ => some eid
  | PoolEv.dispatch _ :: tr => firstErr tr
  | PoolEv.retire :: tr => firstErr tr
  | PoolEv.ok _ :: tr => firstErr tr

/-- `Promise.all`'s settled error after extending a history whose pending
error is `base` by the trace `tr`. -/
def errAfter (base : Option ℕ) (tr : List PoolEv) : Option ℕ :=
  match base with
  | some e => some e
  | none => firstErr tr

/-- Lengths of the successfully completed chunks, in completion order. -/
def okLens (tr : List PoolEv) : List ℕ := (oks tr).map List.length

/-- The `onProgress` arguments generated by completing chunks of lengths
`lens` when the counter starts at `acc`. -/
def progressReportsFrom (total acc : ℕ) : List ℕ → List (ℕ × ℕ)
  | [] => []
  | l :: ls => (min (acc + l) total, total) :: progressReportsFrom total (acc + l) ls

/-- `uploadMasterRecordsBatch` constants and instantiation
(src/services/firestore.ts, lines 167-216): `BATCH_SIZE = 500`,
`CONCURRENCY_LIMIT = 25`, chunks from `chunkArray(records, BATCH_SIZE)`,
progress total `records.length`. -/
def BATCH_SIZE : ℕ := 500

def CONCURRENCY_LIMIT : ℕ := 25

def BATCH_SIZE_pos : 0 < BATCH_SIZE := by norm_num [BATCH_SIZE]

def uploadChunks (records : List MasterRecord) : List Chunk :=
  chunkArray records BATCH_SIZE BATCH_SIZE_pos

def uploadInit (records : List MasterRecord) : PoolState :=
  initState (uploadChunks records) CONCURRENCY_LIMIT

def sampleRec : MasterRecord := MasterRecord.mk "1" "n" "c" "d"

def sampleS0 : PoolState := uploadInit [sampleRec]

def sampleS1 : PoolState :=
  { sampleS0 with
    queue := [], busy := sampleS0.busy ++ [[sampleRec]], idle := sampleS0.idle - 1 }

def sampleS2 : PoolState := okState 1 sampleS1 0

def sampleS3 : PoolState :=
  { sampleS2 with idle := sampleS2.idle - 1, retired := sampleS2.retired + 1 }

def sampleTrace : List PoolEv :=
  [PoolEv.dispatch [sampleRec], PoolEv.ok [sampleRec], PoolEv.retire]

def failRecA : MasterRecord := MasterRecord.mk "A" "x" "y" "z"

def failRecB : MasterRecord := MasterRecord.mk "B" "x" "y" "z"

def failChunks : List Chunk := [[failRecA], [failRecB]]

def failS0 : PoolState := initState failChunks 1

def failS1 : PoolState :=
  { failS0 with
    queue := [[failRecB]], busy := failS0.busy ++ [[failRecA]], idle := failS0.idle - 1 }

def failS2 : PoolState := okState 2 failS1 0

def failS3 : PoolState :=
  { failS2 with
    queue := [], busy := failS2.busy ++ [[failRecB]], idle := failS2.idle - 1 }

def failS4 : PoolState := errState failS3 0 5

def failTrace : List PoolEv :=
  [PoolEv.dispatch [failRecA], PoolEv.ok [failRecA],
   PoolEv.dispatch [failRecB], PoolEv.err [failRecB] 5]

def emptyChunkState : PoolState :=
  { queue := [], busy := [[MasterRecord.mk "" "s" "c" "n"]], idle := 0, retired := 0,
    commits := [], storeOps := [], processed := 3, reports := [], error := none }

/-! ## `restoreBackupBatch` (src/services/firestore.ts, lines 291-317)

```ts
const processChunk = async (chunk: StudentEntry[]) => {
    const batch = writeBatch(db);
    chunk.forEach(record => {
        // Ensure ID exists
        if (!record.id) record.id = crypto.randomUUID();
        const docRef = doc(collectionRef, record.id);
        batch.set(docRef, record);
    });
    await batch.commit();
    processedCount += chunk.length;
    if (onProgress) onProgress(processedCount, students.length);
};
```

`StudentEntry` and its nested types are from `src/types.ts`; TypeScript
`number` fields are modelled as `ℚ`.  `!record.id` is true exactly when the
`id` string is empty, and the assignment mutates the record *after* chunk
assignment and *before* the commit of its chunk.  The values produced by
`crypto.randomUUID()` are an environment parameter `uuids : ℕ → String`
(one per record position). -/

inductive EntryType where
  | tr_pr
  | photocopy
deriving DecidableEq

structure PaperSelection where
  I : Bool
  II : Bool
  PR : Bool
  markSlipI : Option Bool
  markSlipII : Option Bool
deriving DecidableEq

structure SubjectSelection where
  subjectName : String
  papers : PaperSelection
deriving DecidableEq

structure YearSelection where
  yearName : String
  subjects : List SubjectSelection
deriving DecidableEq

structure PaymentRecord where
  amount : ℚ
  ddNo : String
  ddDate : String
  bankName : String
deriving DecidableEq

structure StudentEntry where
  id : String
  collegeCode : String
  collegeName : String
  inwardNo : String
  inwardDate : String
  seatNo : String
  studentName : String
  entryType : EntryType
  years : List YearSelection
  appliedYears : List String
  totalSubjects : ℚ
  totalFees : ℚ
  pendingFees : ℚ
  studentPayFees : ℚ
  ddNo : String
  ddDate : String
  bankName : String
  payments : List PaymentRecord
  dispatchDate : String
  totalFeesReceived : ℚ
  ifFeeLessExcess : String
  checkedBy : String
  remark : String
deriving DecidableEq

/-- `if (!record.id) record.id = crypto.randomUUID();` -/
def ensureId (uuid : String) (record : StudentEntry) : StudentEntry :=
  if record.id = "" then { record with id := uuid } else record

/-- The records as they stand at commit time: the `forEach` has applied
`ensureId` to each record of the chunk (the `n`-th `crypto.randomUUID()`
result being `uuids n`). -/
def restoreChunkRecords (uuids : ℕ → String) (chunk : List StudentEntry) :
    List StudentEntry :=
  chunk.enum.map (fun p => ensureId (uuids p.1) p.2)

/-- The upserts of the restore batch: each (possibly mutated) record under
its `id`. -/
def restoreChunkOps (uuids : ℕ → String) (chunk : List StudentEntry) :
    List (String × StudentEntry) :=
  (restoreChunkRecords uuids chunk).map (fun record => (record.id, record))

def blankStudent : StudentEntry :=
  { id := "", collegeCode := "", collegeName := "", inwardNo := "", inwardDate := "",
    seatNo := "", studentName := "", entryType := EntryType.tr_pr, years := [],
    appliedYears := [], totalSubjects := 0, totalFees := 0, pendingFees := 0,
    studentPayFees := 0, ddNo := "", ddDate := "", bankName := "", payments := [],
    dispatchDate := "", totalFeesReceived := 0, ifFeeLessExcess := "", checkedBy := "",
    remark := "" }

/-! ## Theorems -/

theorem chunkGo_eq {α : Type} (array : List α) (size : ℕ) (hsize : 0 < size) (index : ℕ) :
    chunkGo array size hsize index =
      if index < array.length then
        ((array.drop index).take size) :: chunkGo array size hsize (index + size)
      else [] := by
  rw [chunkGo]
  by_cases h : index < array.length <;> simp [h]

theorem chunkGo_flatten {α : Type} (array : List α) (size : ℕ) (hsize : 0 < size) :
    ∀ n index, array.length - index ≤ n →
      (chunkGo array size hsize index).flatten = array.drop index := by
  intro n
  induction n with
  | zero =>
      intro index hle
      have hge : ¬ index < array.length := by omega
      rw [chunkGo_eq, if_neg hge, List.drop_eq_nil_of_le (by omega)]
      rfl
  | succ n ih =>
      intro index hle
      rw [chunkGo_eq]
      by_cases hlt : index < array.length
      · rw [if_pos hlt, List.flatten_cons, ih (index + size) (by omega)]
        calc ((array.drop index).take size) ++ array.drop (index + size)
            = ((array.drop index).take size) ++ (array.drop index).drop size := by
              rw [List.drop_drop, Nat.add_comm]
          _ = array.drop index := List.take_append_drop _ _
      · rw [if_neg hlt, List.drop_eq_nil_of_le (by omega)]
        rfl

/-- Concatenating the chunks reproduces the input list. -/
theorem chunkArray_flatten {α : Type} (array : List α) (size : ℕ) (hsize : 0 < size) :
    (chunkArray array size hsize).flatten = array := by
  have := chunkGo_flatten array size hsize array.length 0 (by omega)
  simpa [chunkArray] using this

theorem chunkGo_mem_length_le {α : Type} (array : List α) (size : ℕ) (hsize : 0 < size) :
    ∀ n index, array.length - index ≤ n →
      ∀ c ∈ chunkGo array size hsize index, c.length ≤ size := by
  intro n
  induction n with
  | zero =>
      intro index hle c hc
      have hge : ¬ index < array.length := by omega
      rw [chunkGo_eq, if_neg hge] at hc
      simp at hc
  | succ n ih =>
      intro index hle c hc
      rw [chunkGo_eq] at hc
      by_cases hlt : index < array.length
      · rw [if_pos hlt] at hc
        rcases List.mem_cons.mp hc with h | h
        · subst h
          rw [List.length_take]
          omega
        · exact ih (index + size) (by omega) c h
      · rw [if_neg hlt] at hc
        simp at hc

/-- Every chunk has length at most `size`. -/
theorem chunkArray_length_le {α : Type} (array : List α) (size : ℕ) (hsize : 0 < size) :
    ∀ c ∈ chunkArray array size hsize, c.length ≤ size :=
  chunkGo_mem_length_le array size hsize array.length 0 (by omega)

theorem chunkGo_eq_nil_iff {α : Type} (array : List α) (size : ℕ) (hsize : 0 < size)
    (index : ℕ) : chunkGo array size hsize index = [] ↔ array.length ≤ index := by
  rw [chunkGo_eq]
  by_cases hlt : index < array.length
  · rw [if_pos hlt]
    constructor
    · intro h
      exact absurd h (List.cons_ne_nil _ _)
    · intro h
      omega
  · rw [if_neg hlt]
    constructor
    · intro _
      omega
    · intro _
      rfl

theorem chunkGo_sizes {α : Type} (array : List α) (size : ℕ) (hsize : 0 < size) :
    ∀ n index, array.length - index ≤ n →
      ∀ i, i + 1 < (chunkGo array size hsize index).length →
        ((chunkGo array size hsize index).getD i []).length = size := by
  intro n
  induction n with
  | zero =>
      intro index hle i hi
      have hge : ¬ index < array.length := by omega
      rw [chunkGo_eq, if_neg hge] at hi
      simp at hi
  | succ n ih =>
      intro index hle i hi
      by_cases hlt : index < array.length
      · have hrw : chunkGo array size hsize index =
            ((array.drop index).take size) :: chunkGo array size hsize (index + size) := by
          rw [chunkGo_eq, if_pos hlt]
        cases i with
        | zero =>
            have hrest : chunkGo array size hsize (index + size) ≠ [] := by
              intro hnil
              rw [hrw, hnil] at hi
              simp at hi
            have hidx : index + size < array.length := by
              by_contra hge
              exact hrest ((chunkGo_eq_nil_iff array size hsize _).mpr (by omega))
            rw [hrw]
            show (List.take size (List.drop index array)).length = size
            rw [List.length_take, List.length_drop]
            omega
        | succ j =>
            have hi2 : j + 1 < (chunkGo array size hsize (index + size)).length := by
              rw [hrw] at hi
              simpa using hi
            rw [hrw]
            show ((chunkGo array size hsize (index + size)).getD j []).length = size
            exact ih (index + size) (by omega) j hi2
      · exfalso
        rw [chunkGo_eq, if_neg hlt] at hi
        simp at hi

/-- Every chunk except possibly the last has length exactly `size`. -/
theorem chunkArray_sizes {α : Type} (array : List α) (size : ℕ) (hsize : 0 < size) :
    ∀ i, i + 1 < (chunkArray array size hsize).length →
      ((chunkArray array size hsize).getD i []).length = size :=
  chunkGo_sizes array size hsize array.length 0 (by omega)

theorem chunkArray_nil {α : Type} (size : ℕ) (hsize : 0 < size) :
    chunkArray ([] : List α) size hsize = [] := by
  rw [chunkArray, chunkGo_eq]
  simp

theorem chunkLoopRun_eq_of_le {α : Type} (array : List α) (size : ℕ) (hsize : 0 < size) :
    ∀ fuel (s : ChunkLoopState α), array.length - s.index ≤ fuel →
      chunkLoopRun array size fuel s = some (s.acc ++ chunkGo array size hsize s.index) := by
  intro fuel
  induction fuel with
  | zero =>
      intro s hle
      have hge : ¬ s.index < array.length := by omega
      rw [chunkLoopRun, if_neg hge, chunkGo_eq, if_neg hge]
      simp
  | succ fuel ih =>
      intro s hle
      rw [chunkLoopRun]
      by_cases hlt : s.index < array.length
      · rw [if_pos hlt, ih (chunkLoopStep array size s) (by simp [chunkLoopStep]; omega)]
        conv_rhs => rw [chunkGo_eq, if_pos hlt]
        simp [chunkLoopStep]
      · rw [if_neg hlt, chunkGo_eq, if_neg hlt]
        simp

theorem chunkLoopRun_zero_size {α : Type} (array : List α) (harr : array ≠ []) :
    ∀ fuel (acc : List (List α)),
      chunkLoopRun array 0 fuel ⟨0, acc⟩ = none := by
  have hlen : 0 < array.length := List.length_pos.mpr harr
  intro fuel
  induction fuel with
  | zero =>
      intro acc
      rw [chunkLoopRun, if_pos hlen]
  | succ fuel ih =>
      intro acc
      rw [chunkLoopRun, if_pos hlen]
      exact ih _

/-- **C1.** For every list of records and every chunk size `≥ 1`, `chunkArray`
preserves the original order and concatenating its output reproduces the
input list exactly (which also makes the partition deterministic — the
embedding is a pure function of its arguments); every returned chunk has
length `≤ size`; every chunk except possibly the last has length exactly
`size`; and for the empty input list it returns the empty sequence. -/
theorem chunkArray_partition_correct {α : Type} (records : List α) (size : ℕ)
    (hsize : 0 < size) :
    (chunkArray records size hsize).flatten = records
    ∧ (∀ c ∈ chunkArray records size hsize, c.length ≤ size)
    ∧ (∀ i, i + 1 < (chunkArray records size hsize).length →
        ((chunkArray records size hsize).getD i []).length = size)
    ∧ chunkArray ([] : List α) size hsize = [] :=
  ⟨chunkArray_flatten records size hsize,
   chunkArray_length_le records size hsize,
   chunkArray_sizes records size hsize,
   chunkArray_nil size hsize⟩

/-- Witness for C1 at the concrete input `[0, 1, 2]` with `size = 2`. -/
theorem chunkArray_partition_correct_witness :
    (chunkArray [0, 1, 2] 2 two_pos).flatten = [0, 1, 2] :=
  (chunkArray_partition_correct [0, 1, 2] 2 two_pos).1

/-- **C10.** For every input array and every `size ≥ 1` the while loop of
`chunkArray` terminates — within `array.length` iterations, because `index`
strictly increases by `size ≥ 1` per iteration — and produces exactly
`chunkArray`; the precondition `size ≥ 1` is necessary: for `size = 0` and a
non-empty array the loop never terminates, whatever the iteration budget. -/
theorem chunkArray_loop_terminates {α : Type} (array : List α) (size : ℕ) :
    (∀ hsize : 0 < size,
      chunkLoopRun array size array.length ⟨0, []⟩ =
        some (chunkArray array size hsize))
    ∧ (size = 0 → array ≠ [] →
        ∀ fuel, chunkLoopRun array size fuel ⟨0, []⟩ = none) := by
  constructor
  · intro hsize
    rw [chunkLoopRun_eq_of_le array size hsize array.length ⟨0, []⟩ (by simp)]
    rfl
  · intro h0 harr fuel
    subst h0
    exact chunkLoopRun_zero_size array harr fuel []

/-- Witness for C10: termination with the exact result on `[0, 1, 2]` with
`size = 2`, and divergence on `[0]` with `size = 0` at fuel `5`. -/
theorem chunkArray_loop_terminates_witness :
    chunkLoopRun [0, 1, 2] 2 3 ⟨0, []⟩ = some (chunkArray [0, 1, 2] 2 two_pos)
    ∧ chunkLoopRun [0] 0 5 ⟨0, []⟩ = none :=
  ⟨(chunkArray_loop_terminates [0, 1, 2] 2).1 two_pos,
   (chunkArray_loop_terminates [0] 0).2 rfl (by simp) 5⟩

example : sanitizeDocId "A/B" = "A_B" := by decide

example : sanitizeDocId "  " = "" := by decide

example : sanitizeDocId " 12.34 " = "12_34" := by decide

/-- **C5.** A record whose identity key (seat number) is empty after
sanitization and trimming is silently excluded from the backend write — no
upsert is added for it (and `chunkOps` is a total function, so no error is
raised) — while a record with a non-empty sanitized key is written under
that sanitized key. -/
theorem malformed_records_dropped (chunk : List MasterRecord) (r : MasterRecord)
    (hr : r ∈ chunk) :
    (sanitizeDocId r.seatNo = "" → ∀ k, (k, r) ∉ chunkOps chunk)
    ∧ (sanitizeDocId r.seatNo ≠ "" → (sanitizeDocId r.seatNo, r) ∈ chunkOps chunk) := by
  constructor
  · intro hempty k hmem
    rcases List.mem_filterMap.mp hmem with ⟨a, _ha, hfa⟩
    by_cases h : sanitizeDocId a.seatNo ≠ ""
    · simp only [if_pos h] at hfa
      rcases Option.some.inj hfa with heq
      have : a = r := congrArg Prod.snd heq
      subst this
      exact h hempty
    · simp only [if_neg h] at hfa
      exact Option.noConfusion hfa
  · intro hne
    exact List.mem_filterMap.mpr ⟨r, hr, by simp only [if_pos hne]⟩

/-- Witness for C5: in a chunk holding a record with key `"A/B"` and a record
with key `"  "`, the blank-keyed record produces no upsert and the other one
is upserted under the sanitized key `"A_B"`. -/
theorem malformed_records_dropped_witness :
    (∀ k, (k, MasterRecord.mk "  " "T" "D" "M") ∉
        chunkOps [MasterRecord.mk "A/B" "S" "C" "N", MasterRecord.mk "  " "T" "D" "M"])
    ∧ ("A_B", MasterRecord.mk "A/B" "S" "C" "N") ∈
        chunkOps [MasterRecord.mk "A/B" "S" "C" "N", MasterRecord.mk "  " "T" "D" "M"] :=
  ⟨(malformed_records_dropped _ (MasterRecord.mk "  " "T" "D" "M") (by simp)).1 (by decide),
   (malformed_records_dropped _ (MasterRecord.mk "A/B" "S" "C" "N") (by simp)).2 (by decide)⟩

/-- **C8, counterexample.** The claim fails on the code at the concrete
inputs `(processed, total) = (0, 0)` and `(2, 1)`: for `total = 0` the code
computes `Math.round((0 / 0) * 100) = NaN` (modelled `none`) — not the
percentage `0` the claim promises — and for `processed = 2 > total = 1`,
inputs the claim's hypotheses `processed ≥ 0`, `total ≥ 0` admit, the
emitted percentage is `200 ∉ [0, 100]`. -/
theorem progressPct_claim_counterexample :
    progressPct 0 0 = none
    ∧ progressPct 0 0 ≠ some 0
    ∧ progressPct 2 1 = some 200
    ∧ ¬ (200 : ℤ) ≤ 100 := by
  refine ⟨rfl, by simp [progressPct, jsDiv], ?_, by decide⟩
  have h200 : ((2 : ℚ) * 100) = ((200 : ℤ) : ℚ) := by norm_num
  simp [progressPct, jsDiv, h200, round_intCast]

/-- **C8, amended.** For every progress report with `0 ≤ processed ≤ total`
and `total ≥ 1`, the emitted percentage equals
`round(100 * processed / total)` and lies in `[0, 100]` (in particular it is
never negative).  When `total = 0` the code performs `0 / 0` and emits the
non-numeric `NaN` (modelled as `none`) rather than any percentage, so no
`[0, 100]` bound and no "0 by convention" holds there. -/
theorem progressPct_amended (processed total : ℚ) (h0 : 0 ≤ processed)
    (hle : processed ≤ total) (h1 : 1 ≤ total) :
    progressPct processed total = some (round (processed / total * 100))
    ∧ 0 ≤ round (processed / total * 100)
    ∧ round (processed / total * 100) ≤ 100 := by
  have htpos : (0 : ℚ) < total := lt_of_lt_of_le one_pos h1
  have hq0 : 0 ≤ processed / total := div_nonneg h0 (le_of_lt htpos)
  have hq1 : processed / total ≤ 1 := (div_le_one htpos).mpr hle
  refine ⟨?_, ?_, ?_⟩
  · simp [progressPct, jsDiv, ne_of_gt htpos]
  · rw [round_eq]
    rw [Int.le_floor]
    push_cast
    nlinarith
  · rw [round_eq]
    have : ⌊processed / total * 100 + 1 / 2⌋ < 101 := by
      rw [Int.floor_lt]
      push_cast
      nlinarith
    omega

/-- Witness for C8 (amended) at `(processed, total) = (1, 2)`:
the percentage is `round 50 = 50`. -/
theorem progressPct_amended_witness :
    progressPct 1 2 = some (round ((1 : ℚ) / 2 * 100))
    ∧ 0 ≤ round ((1 : ℚ) / 2 * 100)
    ∧ round ((1 : ℚ) / 2 * 100) ≤ 100 :=
  progressPct_amended 1 2 (by norm_num) (by norm_num) (by norm_num)

/-- **C9.** The progress callback performs the rate division only when
`processed > 0` and `elapsedSeconds > 0` — otherwise `setEstimatedTime` is
not invoked, the previously shown `"Calculating..."` sentinel is kept and no
division occurs, so no division-by-zero or infinite estimate is ever
produced; when `remaining ≤ 0` it emits the `"Finishing up..."` sentinel
instead of a number; and otherwise the estimate equals
`round((total - processed) / (processed / elapsedSeconds))`, the divisor
`processed / elapsedSeconds` being strictly positive. -/
theorem progressEstimate_correct (processed total elapsedSeconds : ℚ) :
    (¬ (0 < processed ∧ 0 < elapsedSeconds) →
      progressEstimate processed total elapsedSeconds = TimeEstimate.keepPrevious)
    ∧ (0 < processed → 0 < elapsedSeconds → total - processed ≤ 0 →
      progressEstimate processed total elapsedSeconds = TimeEstimate.finishing)
    ∧ (0 < processed → 0 < elapsedSeconds → 0 < total - processed →
      progressEstimate processed total elapsedSeconds =
        TimeEstimate.eta (round ((total - processed) / (processed / elapsedSeconds)))
      ∧ 0 < processed / elapsedSeconds) := by
  refine ⟨?_, ?_, ?_⟩
  · intro h
    rw [progressEstimate, if_neg h]
  · intro hp he hrem
    rw [progressEstimate, if_pos ⟨hp, he⟩, if_pos hrem]
  · intro hp he hrem
    constructor
    · rw [progressEstimate, if_pos ⟨hp, he⟩, if_neg (by linarith)]
    · exact div_pos hp he

/-- Witness for C9 at `(processed, total, elapsedSeconds) = (0, 10, 0)`:
the first chunk completion with elapsed time `0` keeps the
`"Calculating..."` sentinel. -/
theorem progressEstimate_correct_witness :
    progressEstimate 0 10 0 = TimeEstimate.keepPrevious :=
  (progressEstimate_correct 0 10 0).1 (by norm_num)

/-! ### Run invariants -/

theorem getD_cons_eraseIdx_perm {α : Type} (d : α) :
    ∀ (l : List α) (j : ℕ), j < l.length → l.Perm (l.getD j d :: l.eraseIdx j) := by
  intro l
  induction l with
  | nil =>
      intro j hj
      simp at hj
  | cons a l ih =>
      intro j hj
      cases j with
      | zero =>
          simp
      | succ j =>
          rw [List.getD_cons_succ, List.eraseIdx_cons_succ]
          have hj2 : j < l.length := by simpa using hj
          exact ((ih j hj2).cons a).trans (List.Perm.swap _ _ _)

/-- Chunks are handed to workers in original order: at any point of any run,
the dispatched chunks followed by the remaining queue are exactly the
starting queue. -/
theorem poolRun_queue {total : ℕ} {s tr s₂} (h : PoolRun total s tr s₂) :
    dispatches tr ++ s₂.queue = s.queue := by
  induction h with
  | nil s => rfl
  | cons s s₁ s₂ e tr hstep htail ih =>
      cases hstep with
      | dispatch c q hidle hq =>
          simp only [dispatches, List.cons_append]
          rw [ih, hq]
      | retire hidle hq =>
          simpa [dispatches] using ih
      | ok j hj =>
          simpa [dispatches, okState] using ih
      | err j eid hj hops =>
          simpa [dispatches, errState] using ih

/-- Accounting of chunks: the dispatched chunks (plus the chunks that were
already in flight at the start) are exactly the successfully completed ones,
the failed ones, and the ones still in flight. -/
theorem poolRun_busy_acct {total : ℕ} {s tr s₂} (h : PoolRun total s tr s₂) :
    (dispatches tr ++ s.busy).Perm (oks tr ++ errChunks tr ++ s₂.busy) := by
  induction h with
  | nil s => simp [dispatches, oks, errChunks]
  | cons s s₁ s₂ e tr hstep htail ih =>
      cases hstep with
      | dispatch c q hidle hq =>
          rw [List.perm_iff_count]
          intro a
          have ihc := ih.count_eq a
          simp only [dispatches, oks, errChunks, List.count_append, List.count_cons,
            List.count_nil] at *
          omega
      | retire hidle hq =>
          simpa [dispatches, oks, errChunks] using ih
      | ok j hj =>
          have hperm := getD_cons_eraseIdx_perm ([] : Chunk) s.busy j hj
          rw [List.perm_iff_count]
          intro a
          have ihc := ih.count_eq a
          have hpc := hperm.count_eq a
          simp only [dispatches, oks, errChunks, okState, List.count_append,
            List.count_cons, List.count_nil] at *
          omega
      | err j eid hj hops =>
          have hperm := getD_cons_eraseIdx_perm ([] : Chunk) s.busy j hj
          rw [List.perm_iff_count]
          intro a
          have ihc := ih.count_eq a
          have hpc := hperm.count_eq a
          simp only [dispatches, oks, errChunks, errState, List.count_append,
            List.count_cons, List.count_nil] at *
          omega

/-- The shared counter grows by exactly the original length of each
successfully completed chunk. -/
theorem poolRun_processed {total : ℕ} {s tr s₂} (h : PoolRun total s tr s₂) :
    s₂.processed = s.processed + (okLens tr).sum := by
  induction h with
  | nil s => simp [okLens, oks]
  | cons s s₁ s₂ e tr hstep htail ih =>
      cases hstep with
      | dispatch c q hidle hq =>
          simpa [okLens, oks] using ih
      | retire hidle hq =>
          simpa [okLens, oks] using ih
      | ok j hj =>
          have ih2 := ih
          simp only [okState] at ih2
          simp only [okLens, oks, List.map_cons, List.sum_cons] at *
          omega
      | err j eid hj hops =>
          simpa [okLens, oks, errState] using ih

/-- The `onProgress` invocations are exactly the running clamped prefix sums
of the completed chunks' original lengths. -/
theorem poolRun_reports {total : ℕ} {s tr s₂} (h : PoolRun total s tr s₂) :
    s₂.reports = s.reports ++ progressReportsFrom total s.processed (okLens tr) := by
  induction h with
  | nil s => simp [okLens, oks, progressReportsFrom]
  | cons s s₁ s₂ e tr hstep htail ih =>
      cases hstep with
      | dispatch c q hidle hq =>
          simpa [okLens, oks] using ih
      | retire hidle hq =>
          simpa [okLens, oks] using ih
      | ok j hj =>
          have ih2 := ih
          simp only [okState] at ih2
          rw [ih2]
          simp only [okLens, oks, List.map_cons, progressReportsFrom, List.append_assoc,
            List.singleton_append]
      | err j eid hj hops =>
          simpa [okLens, oks, errState] using ih

theorem errAfter_nonerr {base : Option ℕ} {e : PoolEv} {tr : List PoolEv}
    (he : ∀ c eid, e ≠ PoolEv.err c eid) :
    errAfter base (e :: tr) = errAfter base tr := by
  cases base with
  | some v => rfl
  | none =>
      cases e with
      | dispatch c => rfl
      | retire => rfl
      | ok c => rfl
      | err c eid => exact absurd rfl (he c eid)

/-- The run's error is `Promise.all`'s: the first rejection, kept forever. -/
theorem poolRun_error {total : ℕ} {s tr s₂} (h : PoolRun total s tr s₂) :
    s₂.error = errAfter s.error tr := by
  induction h with
  | nil s => cases hs : s.error <;> simp [errAfter, firstErr, hs]
  | cons s s₁ s₂ e tr hstep htail ih =>
      cases hstep with
      | dispatch c q hidle hq =>
          rw [errAfter_nonerr (by intro c2 eid2 hne; exact PoolEv.noConfusion hne)]
          exact ih
      | retire hidle hq =>
          rw [errAfter_nonerr (by intro c2 eid2 hne; exact PoolEv.noConfusion hne)]
          exact ih
      | ok j hj =>
          rw [errAfter_nonerr (by intro c2 eid2 hne; exact PoolEv.noConfusion hne)]
          simpa [okState] using ih
      | err j eid hj hops =>
          rw [ih]
          cases hs : s.error with
          | none => simp [errState, errAfter, firstErr, hs]
          | some v => simp [errState, errAfter, firstErr, hs]

/-- The backend store only accumulates: it holds exactly the upserts of the
successfully committed chunks, in completion order; nothing is rolled back. -/
theorem poolRun_storeOps {total : ℕ} {s tr s₂} (h : PoolRun total s tr s₂) :
    s₂.storeOps = s.storeOps ++ ((oks tr).map chunkOps).flatten := by
  induction h with
  | nil s => simp [oks]
  | cons s s₁ s₂ e tr hstep htail ih =>
      cases hstep with
      | dispatch c q hidle hq =>
          simpa [oks] using ih
      | retire hidle hq =>
          simpa [oks] using ih
      | ok j hj =>
          simp only [oks, List.map_cons, List.flatten_cons]
          rw [ih]
          simp [okState, List.append_assoc]
      | err j eid hj hops =>
          simpa [oks, errState] using ih

/-- `batch.commit()` is invoked once per successfully completed chunk with a
non-empty batch, and never for a chunk whose batch stayed empty. -/
theorem poolRun_commits {total : ℕ} {s tr s₂} (h : PoolRun total s tr s₂) :
    s₂.commits = s.commits ++
      ((oks tr).map chunkOps).filter (fun l => !l.isEmpty) := by
  induction h with
  | nil s => simp [oks]
  | cons s s₁ s₂ e tr hstep htail ih =>
      cases hstep with
      | dispatch c q hidle hq =>
          simpa [oks] using ih
      | retire hidle hq =>
          simpa [oks] using ih
      | ok j hj =>
          have ih2 := ih
          simp only [okState] at ih2
          rw [ih2]
          simp only [oks, List.map_cons, List.filter_cons]
          by_cases hops : chunkOps (s.busy.getD j []) = []
          · rw [List.getD_eq_getElem?_getD] at hops
            simp [hops]
          · have hne : (chunkOps (s.busy.getD j [])).isEmpty = false := by
              simpa [List.isEmpty_iff] using hops
            rw [List.getD_eq_getElem?_getD] at hops hne
            simp [hops, hne, List.append_assoc]
      | err j eid hj hops =>
          simpa [oks, errState] using ih

/-- Worker accounting: workers only move between idle, busy, retired and
crashed (one crash per `err` event). -/
theorem poolRun_workers {total : ℕ} {s tr s₂} (h : PoolRun total s tr s₂) :
    s₂.idle + s₂.busy.length + s₂.retired + (errChunks tr).length =
      s.idle + s.busy.length + s.retired
    ∧ s₂.retired = s.retired + retireCount tr := by
  induction h with
  | nil s => simp [errChunks, retireCount]
  | cons s s₁ s₂ e tr hstep htail ih =>
      cases hstep with
      | dispatch c q hidle hq =>
          simp only [errChunks, retireCount] at *
          simp only [List.length_append, List.length_cons, List.length_nil] at ih
          omega
      | retire hidle hq =>
          simp only [errChunks, retireCount] at *
          omega
      | ok j hj =>
          have hlen : (s.busy.eraseIdx j).length = s.busy.length - 1 := by
            rw [List.length_eraseIdx, if_pos hj]
          simp only [errChunks, retireCount, okState] at *
          omega
      | err j eid hj hops =>
          have hlen : (s.busy.eraseIdx j).length = s.busy.length - 1 := by
            rw [List.length_eraseIdx, if_pos hj]
          simp only [errChunks, retireCount, errState, List.length_cons] at *
          omega

/-- Once a worker has retired the queue is empty, and it stays empty. -/
theorem poolRun_retire_queue {total : ℕ} {s tr s₂} (h : PoolRun total s tr s₂) :
    PoolEv.retire ∈ tr → s₂.queue = [] := by
  induction h with
  | nil s =>
      intro hmem
      simp at hmem
  | cons s s₁ s₂ e tr hstep htail ih =>
      intro hmem
      rcases List.mem_cons.mp hmem with he | hmem2
      · cases hstep with
        | dispatch c q hidle hq => exact PoolEv.noConfusion he.symm
        | retire hidle hq =>
            have hq2 := poolRun_queue htail
            rw [show ({ s with idle := s.idle - 1, retired := s.retired + 1 } : PoolState).queue
                = s.queue from rfl, hq] at hq2
            exact (List.append_eq_nil.mp hq2).2
        | ok j hj => exact PoolEv.noConfusion he.symm
        | err j eid hj hops => exact PoolEv.noConfusion he.symm
      · exact ih hmem2

theorem firstErr_eq_none_iff (tr : List PoolEv) :
    firstErr tr = none ↔ errChunks tr = [] := by
  induction tr with
  | nil => simp [firstErr, errChunks]
  | cons e tr ih =>
      cases e with
      | dispatch c => simpa [firstErr, errChunks] using ih
      | retire => simpa [firstErr, errChunks] using ih
      | ok c => simpa [firstErr, errChunks] using ih
      | err c eid => simp [firstErr, errChunks]

theorem retire_mem_of_retireCount_pos {tr : List PoolEv} (h : 0 < retireCount tr) :
    PoolEv.retire ∈ tr := by
  induction tr with
  | nil => simp [retireCount] at h
  | cons e tr ih =>
      cases e with
      | dispatch c =>
          simp only [retireCount] at h
          exact List.mem_cons_of_mem _ (ih h)
      | retire => exact List.mem_cons_self _ _
      | ok c =>
          simp only [retireCount] at h
          exact List.mem_cons_of_mem _ (ih h)
      | err c eid =>
          simp only [retireCount] at h
          exact List.mem_cons_of_mem _ (ih h)

/-- In a terminal error-free run started from the initial state with at
least one worker, every chunk was dispatched (the queue was drained) and
every dispatched chunk completed successfully. -/
theorem poolRun_terminal_complete {chunks : List Chunk} {concurrency total : ℕ}
    (hc : 0 < concurrency) {tr s₂}
    (h : PoolRun total (initState chunks concurrency) tr s₂)
    (hterm : Terminal s₂) (hnoerr : s₂.error = none) :
    dispatches tr = chunks ∧ (oks tr).Perm chunks := by
  have herrn : firstErr tr = none := by
    have he := poolRun_error h
    rw [hnoerr] at he
    simpa [initState, errAfter] using he.symm
  have herr0 : errChunks tr = [] := (firstErr_eq_none_iff tr).mp herrn
  have hqueue := poolRun_queue h
  rcases poolRun_workers h with ⟨hsum, hret⟩
  rcases hterm with ⟨hidle, hbusy⟩
  have hqnil : s₂.queue = [] := by
    by_cases hnil : chunks = []
    · subst hnil
      have : dispatches tr ++ s₂.queue = [] := by simpa [initState] using hqueue
      exact (List.append_eq_nil.mp this).2
    · have hwc : 0 < min concurrency chunks.length := by
        have : 0 < chunks.length := List.length_pos.mpr hnil
        omega
      have hretpos : 0 < retireCount tr := by
        rw [hidle, hbusy, herr0] at hsum
        simp only [initState, List.length_nil] at hsum hret
        omega
      exact poolRun_retire_queue h (retire_mem_of_retireCount_pos hretpos)
  have hdisp : dispatches tr = chunks := by
    rw [hqnil] at hqueue
    simpa [initState] using hqueue
  refine ⟨hdisp, ?_⟩
  have hacct := poolRun_busy_acct h
  rw [hdisp, hbusy, herr0] at hacct
  simp only [initState, List.append_nil] at hacct
  exact hacct.symm

/-! ### Additional trace lemmas -/

theorem firstErr_append_err (c : Chunk) (eid : ℕ) (tr₂ : List PoolEv) :
    ∀ tr₁ : List PoolEv, errChunks tr₁ = [] →
      firstErr (tr₁ ++ PoolEv.err c eid :: tr₂) = some eid := by
  intro tr₁
  induction tr₁ with
  | nil =>
      intro _
      rfl
  | cons e tr ih =>
      intro h
      cases e with
      | dispatch c2 =>
          simp only [errChunks] at h
          simpa [firstErr] using ih h
      | retire =>
          simp only [errChunks] at h
          simpa [firstErr] using ih h
      | ok c2 =>
          simp only [errChunks] at h
          simpa [firstErr] using ih h
      | err c2 eid2 =>
          simp [errChunks] at h

theorem errChunks_mem {c : Chunk} {eid : ℕ} :
    ∀ {tr : List PoolEv}, PoolEv.err c eid ∈ tr → c ∈ errChunks tr := by
  intro tr
  induction tr with
  | nil =>
      intro h
      simp at h
  | cons e tr ih =>
      intro h
      rcases List.mem_cons.mp h with he | hmem
      · rw [← he]
        exact List.mem_cons_self _ _
      · cases e with
        | dispatch c2 => simpa [errChunks] using ih hmem
        | retire => simpa [errChunks] using ih hmem
        | ok c2 => simpa [errChunks] using ih hmem
        | err c2 eid2 => exact List.mem_cons_of_mem _ (ih hmem)

theorem progressReportsFrom_mem (total : ℕ) :
    ∀ (lens : List ℕ) (acc : ℕ) (r : ℕ × ℕ),
      r ∈ progressReportsFrom total acc lens → r.1 ≤ r.2 ∧ r.2 = total := by
  intro lens
  induction lens with
  | nil =>
      intro acc r hr
      simp [progressReportsFrom] at hr
  | cons l ls ih =>
      intro acc r hr
      rw [progressReportsFrom] at hr
      rcases List.mem_cons.mp hr with he | hmem
      · subst he
        exact ⟨Nat.min_le_right _ _, rfl⟩
      · exact ih (acc + l) r hmem

theorem progressReportsFrom_chain (total : ℕ) :
    ∀ (lens : List ℕ) (acc : ℕ),
      List.Chain' (fun a b : ℕ × ℕ => a.1 ≤ b.1) (progressReportsFrom total acc lens) := by
  intro lens
  induction lens with
  | nil =>
      intro acc
      exact List.chain'_nil
  | cons l ls ih =>
      intro acc
      rw [progressReportsFrom]
      cases ls with
      | nil => simp [progressReportsFrom]
      | cons l2 ls2 =>
          rw [progressReportsFrom, List.chain'_cons]
          constructor
          · exact min_le_min (by omega) (le_refl total)
          · have := ih (acc + l)
            rw [progressReportsFrom] at this
            exact this

theorem progressReportsFrom_getLast (total : ℕ) :
    ∀ (lens : List ℕ) (acc : ℕ), lens ≠ [] →
      (progressReportsFrom total acc lens).getLast? =
        some (min (acc + lens.sum) total, total) := by
  intro lens
  induction lens with
  | nil =>
      intro acc h
      exact absurd rfl h
  | cons l ls ih =>
      intro acc _
      cases ls with
      | nil => simp [progressReportsFrom]
      | cons l2 ls2 =>
          rw [progressReportsFrom]
          obtain ⟨x, xs, hxx⟩ :
              ∃ x xs, progressReportsFrom total (acc + l) (l2 :: ls2) = x :: xs :=
            ⟨_, _, rfl⟩
          rw [hxx, List.getLast?_cons_cons, ← hxx, ih (acc + l) (by simp)]
          have hsum : acc + l + (l2 :: ls2).sum = acc + (l :: l2 :: ls2).sum := by
            rw [show (l :: l2 :: ls2).sum = l + (l2 :: ls2).sum from List.sum_cons]
            omega
          rw [hsum]

theorem progressReportsFrom_ne_nil (total : ℕ) (lens : List ℕ) (acc : ℕ)
    (h : lens ≠ []) : progressReportsFrom total acc lens ≠ [] := by
  cases lens with
  | nil => exact absurd rfl h
  | cons l ls =>
      rw [progressReportsFrom]
      exact List.cons_ne_nil _ _

/-! ## The claims about the pool and the pipeline -/

/-- **C4.** For every list of chunks and every `concurrency ≥ 1`,
`processInPool` invokes the unit-of-work function exactly once per chunk
before resolving — never zero times and never more than once, with no
retries, duplications or skips — under the single-threaded cooperative
scheduling model.  A `dispatch` event is precisely an invocation of
`processItem` on the dequeued chunk, so: in every run (whatever the
interleaving and the backend outcomes) the invoked chunks form exactly the
consumed prefix of the original chunk list (never more than once, never out
of order), and in every run that resolves without error (`Terminal` plus no
rejection) the invoked chunks are exactly the original chunks, each exactly
once, and each completed exactly once. -/
theorem processInPool_work_exactly_once (chunks : List Chunk) (concurrency : ℕ)
    (hc : 0 < concurrency) (total : ℕ) (tr : List PoolEv) (s : PoolState)
    (hrun : PoolRun total (initState chunks concurrency) tr s) :
    dispatches tr ++ s.queue = chunks
    ∧ (Terminal s → s.error = none →
        dispatches tr = chunks ∧ (oks tr).Perm chunks) := by
  constructor
  · simpa [initState] using poolRun_queue hrun
  · intro hterm hnoerr
    exact poolRun_terminal_complete hc hrun hterm hnoerr

/-- **C2.** If the atomic commit for any one chunk fails, the whole batch
upload resolves to failure with that error (the first rejection is what
`Promise.all`, and hence `uploadMasterRecordsBatch`, settles with); no
automatic retry of the failed chunk is performed (chunks are dispatched at
most once: the dispatched list is always the consumed prefix of the chunk
list); and chunks whose commits already succeeded before the failure are not
rolled back — the store holds exactly the upserts of the successfully
committed chunks and only ever grows. -/
theorem uploadBatch_failfast (chunks : List Chunk) (concurrency total : ℕ)
    (tr : List PoolEv) (s : PoolState)
    (hrun : PoolRun total (initState chunks concurrency) tr s) :
    (∀ tr₁ c eid tr₂, tr = tr₁ ++ PoolEv.err c eid :: tr₂ → errChunks tr₁ = [] →
        s.error = some eid)
    ∧ ((∃ c eid, PoolEv.err c eid ∈ tr) → s.error ≠ none)
    ∧ dispatches tr ++ s.queue = chunks
    ∧ s.storeOps = ((oks tr).map chunkOps).flatten
    ∧ (∀ (sMid : PoolState) (trMid : List PoolEv) (sEnd : PoolState),
        PoolRun total sMid trMid sEnd →
          sMid.storeOps <+: sEnd.storeOps ∧ sMid.commits <+: sEnd.commits) := by
  have herr := poolRun_error hrun
  simp only [initState, errAfter] at herr
  refine ⟨?_, ?_, ?_, ?_, ?_⟩
  · intro tr₁ c eid tr₂ htr h1
    rw [herr, htr]
    exact firstErr_append_err c eid tr₂ tr₁ h1
  · rintro ⟨c, eid, hmem⟩ hnone
    rw [herr] at hnone
    have : errChunks tr = [] := (firstErr_eq_none_iff tr).mp hnone
    have hc : c ∈ errChunks tr := errChunks_mem hmem
    rw [this] at hc
    simp at hc
  · simpa [initState] using poolRun_queue hrun
  · simpa [initState] using poolRun_storeOps hrun
  · intro sMid trMid sEnd hmid
    constructor
    · rw [poolRun_storeOps hmid]
      exact List.prefix_append _ _
    · rw [poolRun_commits hmid]
      exact List.prefix_append _ _

/-- **C3.** For every run of a batch upload: the sequence of `processed`
values passed to the `onProgress` sink is non-decreasing; every reported
`(processed, total)` satisfies `processed ≤ total` (with `0 ≤ processed`
trivially, both being naturals) and `total = records.length`; the counter is
incremented per completed chunk by that chunk's original length (dropped
records included); and on an error-free complete run with a non-empty input
the final report equals `(total, total)`. -/
theorem uploadBatch_progress_monotone (records : List MasterRecord)
    (tr : List PoolEv) (s : PoolState)
    (hrun : PoolRun records.length (uploadInit records) tr s) :
    List.Chain' (fun a b : ℕ × ℕ => a.1 ≤ b.1) s.reports
    ∧ (∀ r ∈ s.reports, r.1 ≤ r.2 ∧ r.2 = records.length)
    ∧ s.processed = (okLens tr).sum
    ∧ s.reports = progressReportsFrom records.length 0 (okLens tr)
    ∧ (Terminal s → s.error = none → records ≠ [] →
        s.reports.getLast? = some (records.length, records.length)) := by
  have hreports := poolRun_reports hrun
  simp only [uploadInit, initState, List.nil_append] at hreports
  have hproc := poolRun_processed hrun
  simp only [uploadInit, initState, Nat.zero_add] at hproc
  refine ⟨?_, ?_, hproc, hreports, ?_⟩
  · rw [hreports]
    exact progressReportsFrom_chain records.length (okLens tr) 0
  · intro r hr
    rw [hreports] at hr
    exact progressReportsFrom_mem records.length (okLens tr) 0 r hr
  · intro hterm hnoerr hne
    have hcomplete :=
      @poolRun_terminal_complete (uploadChunks records) CONCURRENCY_LIMIT records.length
        (by norm_num [CONCURRENCY_LIMIT]) tr s hrun hterm hnoerr
    have hsum : (okLens tr).sum = records.length := by
      have hperm : ((oks tr).map List.length).Perm
          ((uploadChunks records).map List.length) :=
        hcomplete.2.map List.length
      have := hperm.sum_eq
      rw [okLens] at *
      rw [this]
      have hflat : (uploadChunks records).flatten = records :=
        chunkArray_flatten records BATCH_SIZE BATCH_SIZE_pos
      calc ((uploadChunks records).map List.length).sum
          = (uploadChunks records).flatten.length := (List.length_flatten _).symm
        _ = records.length := by rw [hflat]
    have hlens_ne : okLens tr ≠ [] := by
      intro h0
      have : oks tr = [] := by
        rw [okLens] at h0
        exact List.map_eq_nil_iff.mp h0
      rw [this] at hcomplete
      have : uploadChunks records = [] := (hcomplete.2.symm).eq_nil
      have : records = [] := by
        have hflat := chunkArray_flatten records BATCH_SIZE BATCH_SIZE_pos
        rw [show uploadChunks records = chunkArray records BATCH_SIZE BATCH_SIZE_pos
            from rfl] at this
        rw [this] at hflat
        simpa using hflat.symm
      exact hne this
    rw [hreports, progressReportsFrom_getLast records.length (okLens tr) 0 hlens_ne]
    rw [hsum]
    simp

/-- Inversion: a chunk can only fail if its batch actually committed, i.e.
if it contained at least one eligible operation. -/
theorem poolStep_err_ops {total : ℕ} {s : PoolState} {c : Chunk} {eid : ℕ}
    {s₂ : PoolState} (h : PoolStep total s (PoolEv.err c eid) s₂) :
    chunkOps c ≠ [] := by
  cases h with
  | err j2 eid2 hj2 hops2 => exact hops2

/-- **C6.** For a chunk in which zero records survive the
malformed-identity-key filter (`chunkOps` empty, i.e. `batchHasOps` stays
false), completing it never invokes the backend commit (`commits` and the
store are unchanged), is not an error (no `err` step exists for that chunk,
and the error state is untouched), and the chunk is still counted toward
progress by its original length, with the corresponding `onProgress` call. -/
theorem emptyChunk_commit_skipped (total : ℕ) (s : PoolState) (j : ℕ)
    (hj : j < s.busy.length) (hops : chunkOps (s.busy.getD j []) = []) :
    (okState total s j).commits = s.commits
    ∧ (okState total s j).storeOps = s.storeOps ++ []
    ∧ (okState total s j).error = s.error
    ∧ (okState total s j).processed = s.processed + (s.busy.getD j []).length
    ∧ (okState total s j).reports =
        s.reports ++ [(min (s.processed + (s.busy.getD j []).length) total, total)]
    ∧ ∀ eid s₂, ¬ PoolStep total s (PoolEv.err (s.busy.getD j []) eid) s₂ := by
  have hops2 := hops
  rw [List.getD_eq_getElem?_getD] at hops2
  refine ⟨by simp [okState, hops, hops2], by simp [okState, hops, hops2], rfl, rfl, rfl, ?_⟩
  intro eid s₂ hstep
  exact poolStep_err_ops hstep hops

/-! ### Concrete runs used as witnesses -/

theorem uploadChunks_single (r : MasterRecord) : uploadChunks [r] = [[r]] := by
  rw [uploadChunks, chunkArray, chunkGo_eq, if_pos (by simp)]
  rw [chunkGo_eq, if_neg (by simp [BATCH_SIZE])]
  rw [List.drop_zero, List.take_of_length_le (by simp [BATCH_SIZE])]

/-- A complete successful run of `uploadMasterRecordsBatch` over one
record. -/
theorem sampleRun : PoolRun 1 sampleS0 sampleTrace sampleS3 := by
  refine PoolRun.cons _ sampleS1 _ _ _ ?_
    (PoolRun.cons _ sampleS2 _ _ _ ?_
      (PoolRun.cons _ sampleS3 _ _ _ ?_ (PoolRun.nil _)))
  · exact PoolStep.dispatch sampleS0 [sampleRec] []
      (by simp [sampleS0, uploadInit, initState, uploadChunks_single, CONCURRENCY_LIMIT])
      (by simp [sampleS0, uploadInit, initState, uploadChunks_single])
  · exact PoolStep.ok sampleS1 0
      (by simp [sampleS1, sampleS0, uploadInit, initState])
  · exact PoolStep.retire sampleS2 (Nat.succ_pos _) rfl

theorem sampleS3_terminal : Terminal sampleS3 := by
  constructor
  · simp [sampleS3, sampleS2, sampleS1, sampleS0, okState, uploadInit, initState,
      uploadChunks_single, CONCURRENCY_LIMIT]
  · simp [sampleS3, sampleS2, sampleS1, sampleS0, okState, uploadInit, initState]

/-- A run of two chunks with one worker in which the first chunk commits and
the second chunk's commit rejects with error `5`. -/
theorem failRun : PoolRun 2 failS0 failTrace failS4 := by
  refine PoolRun.cons _ failS1 _ _ _ ?_
    (PoolRun.cons _ failS2 _ _ _ ?_
      (PoolRun.cons _ failS3 _ _ _ ?_
        (PoolRun.cons _ failS4 _ _ _ ?_ (PoolRun.nil _))))
  · exact PoolStep.dispatch failS0 [failRecA] [[failRecB]] (by decide) rfl
  · exact PoolStep.ok failS1 0 (by decide)
  · exact PoolStep.dispatch failS2 [failRecB] [] (Nat.succ_pos _) rfl
  · exact PoolStep.err failS3 0 5 (by decide) (by decide)

/-- Witness for C4: in the one-chunk success run, the unit of work was
invoked on exactly the chunk list, once. -/
theorem processInPool_work_exactly_once_witness :
    dispatches sampleTrace ++ sampleS3.queue = uploadChunks [sampleRec] :=
  (processInPool_work_exactly_once (uploadChunks [sampleRec]) CONCURRENCY_LIMIT
    (by norm_num [CONCURRENCY_LIMIT]) 1 sampleTrace sampleS3 sampleRun).1

/-- Witness for C2: in the failing run, the pool resolves with the failing
chunk's error `5`, and the store still holds exactly the upserts of the
chunk that committed before the failure. -/
theorem uploadBatch_failfast_witness :
    failS4.error = some 5
    ∧ failS4.storeOps = ((oks failTrace).map chunkOps).flatten :=
  ⟨(uploadBatch_failfast failChunks 1 2 failTrace failS4 failRun).1
      [PoolEv.dispatch [failRecA], PoolEv.ok [failRecA], PoolEv.dispatch [failRecB]]
      [failRecB] 5 [] rfl (by decide),
   (uploadBatch_failfast failChunks 1 2 failTrace failS4 failRun).2.2.2.1⟩

/-- Witness for C3: the success run's final report is `(total, total)`. -/
theorem uploadBatch_progress_monotone_witness :
    sampleS3.reports.getLast? = some (1, 1) :=
  (uploadBatch_progress_monotone [sampleRec] sampleTrace sampleS3 sampleRun).2.2.2.2
    sampleS3_terminal rfl (by simp)

/-- Witness for C6: completing the chunk whose only record has an empty
seat number never touches `commits`. -/
theorem emptyChunk_commit_skipped_witness :
    (okState 7 emptyChunkState 0).commits = emptyChunkState.commits :=
  (emptyChunk_commit_skipped 7 emptyChunkState 0 (by decide) (by decide)).1

/-- **C7, counterexample.** The claim "no field of any record is modified
between partitioning into chunks and the commit of its chunk" is false on
the code: in `restoreBackupBatch`, a record whose `id` is empty is mutated
inside the chunk's unit of work — at the concrete input `[blankStudent]`
with the generated UUID `"3c9e1f0a"`, the records committed differ from the
records assigned to the chunk, their `id` field having been overwritten. -/
theorem restore_mutates_counterexample :
    restoreChunkRecords (fun _ => "3c9e1f0a") [blankStudent] ≠ [blankStudent]
    ∧ (ensureId "3c9e1f0a" blankStudent).id ≠ blankStudent.id := by
  constructor
  · decide
  · decide

/-- **C7, amended.** Records are partitioned so that each record position is
consumed by exactly one chunk (concatenating the chunks of
`restoreBackupBatch`'s `chunkArray(students, 500)` gives back `students`),
and no field of a record is modified between chunk assignment and the
commit of its chunk **except** in `restoreBackupBatch` for a record whose
`id` is empty, whose `id` field alone is overwritten with a freshly
generated UUID inside the unit of work before the commit; a record with a
non-empty `id` is committed unchanged, and the batch upserts exactly the
resulting records under their `id`s. -/
theorem restore_mutation_only_id (students : List StudentEntry) (uuid : String)
    (uuids : ℕ → String) (r : StudentEntry) (chunk : List StudentEntry) :
    (chunkArray students BATCH_SIZE BATCH_SIZE_pos).flatten = students
    ∧ (r.id ≠ "" → ensureId uuid r = r)
    ∧ (r.id = "" → ensureId uuid r = { r with id := uuid })
    ∧ restoreChunkOps uuids chunk =
        (restoreChunkRecords uuids chunk).map (fun record => (record.id, record)) := by
  refine ⟨chunkArray_flatten students BATCH_SIZE BATCH_SIZE_pos, ?_, ?_, rfl⟩
  · intro hne
    rw [ensureId, if_neg hne]
  · intro heq
    rw [ensureId, if_pos heq]

/-- Witness for C7 (amended) at `blankStudent` and UUID `"u1"`. -/
theorem restore_mutation_only_id_witness :
    ensureId "u1" blankStudent = { blankStudent with id := "u1" } :=
  (restore_mutation_only_id [] "u1" (fun _ => "u1") blankStudent []).2.2.1 rfl

end TrprBatch